import Mathlib

/-!
Verification of the YouBike station-statistics core
(`youbike_analysis_final2.py` and `youbike_step_final2.py`).

The development shallowly embeds the arithmetic core of the two dashboards:

* the per-station derived ratios computed in `load_and_process_data`
  (lines 53-65 of `youbike_analysis_final2.py`), including the pandas
  float-division semantics (division by zero yields NaN or a signed
  infinity, `fillna(0)` replaces only NaN) and the 3-decimal rounding
  (`Series.round`, round-half-to-even);
* the quartile bucketizer of `create_group_selector` (lines 100-113)
  together with the boundary rules applied by the plotting functions
  (lines 155-171): pandas' default linear-interpolation quantile, the
  inclusive low group and the exclusive-left upper groups;
* the hourly aggregate `hourly_usage` (lines 79-82);
* the `short_name` derivation (lines 71-76);
* the map pipeline of `youbike_step_final2.py`: the guarded usage rates
  of `load_youbike_data` (lines 24-27), the per-station aggregation and
  threshold filter of `create_map_visualization` (lines 39-48) and the
  data-table filter of `main` (lines 323-339).

Numeric columns are modelled as rationals; IEEE special values produced
by pandas division are modelled explicitly by the `PVal` type.
-/

/-- Round a rational to the nearest integer, ties to even
(the rounding used by numpy/pandas `round`). -/
def roundHalfEven (x : ℚ) : ℤ :=
  if x - Int.floor x < 1 / 2 then Int.floor x
  else if 1 / 2 < x - Int.floor x then Int.floor x + 1
  else if Int.floor x % 2 = 0 then Int.floor x else Int.floor x + 1

/-- Round to 3 decimal places, as `Series.round(3)` does on the derived
ratio columns. -/
def round3 (x : ℚ) : ℚ := (roundHalfEven (x * 1000) : ℚ) / 1000

/-- Round to 2 decimal places, as `.round(2)` does on the aggregated
mean columns. -/
def round2 (x : ℚ) : ℚ := (roundHalfEven (x * 100) : ℚ) / 100

/-- Value of a pandas float column entry: a finite rational, NaN, or a
signed infinity. -/
inductive PVal where
  | num (q : ℚ)
  | nan
  | inf
  | ninf
deriving DecidableEq, Repr

/-- Pandas float division of two finite values: `0 / 0` is NaN, a
nonzero numerator over `0` is a signed infinity, otherwise the exact
quotient. -/
def ratDiv (a b : ℚ) : PVal :=
  if b = 0 then (if a = 0 then .nan else if 0 < a then .inf else .ninf)
  else .num (a / b)

/-- Division `std / avg` where the standard deviation column may be NaN
(pandas sample std of a singleton group); NaN divided by anything is
NaN. -/
def stdDiv (s : Option ℚ) (a : ℚ) : PVal :=
  match s with
  | none => .nan
  | some s => ratDiv s a

/-- Pandas `Series.fillna(0)`: replaces NaN by `0` and leaves every
other value (infinities included) unchanged. -/
def fillna0 (v : PVal) : PVal :=
  match v with
  | .nan => .num 0
  | v => v

/-- Pandas `Series.round(3)` on a float column: finite entries are
rounded, NaN and infinities pass through. -/
def round3P (v : PVal) : PVal :=
  match v with
  | .num q => .num (round3 q)
  | v => v

/-- IEEE addition on pandas float values. -/
def addP (a b : PVal) : PVal :=
  match a, b with
  | .nan, _ => .nan
  | _, .nan => .nan
  | .inf, .ninf => .nan
  | .ninf, .inf => .nan
  | .inf, _ => .inf
  | _, .inf => .inf
  | .ninf, _ => .ninf
  | _, .ninf => .ninf
  | .num a, .num b => .num (a + b)

/-- IEEE division by the positive constant `2`. -/
def halfP (a : PVal) : PVal :=
  match a with
  | .num q => .num (q / 2)
  | v => v

/-- IEEE multiplication on pandas float values; `0 * (±inf)` is NaN. -/
def mulP (a b : PVal) : PVal :=
  match a, b with
  | .nan, _ => .nan
  | _, .nan => .nan
  | .num a, .num b => .num (a * b)
  | .inf, .inf => .inf
  | .inf, .ninf => .ninf
  | .ninf, .inf => .ninf
  | .ninf, .ninf => .inf
  | .num a, .inf => if a = 0 then .nan else if 0 < a then .inf else .ninf
  | .num a, .ninf => if a = 0 then .nan else if 0 < a then .ninf else .inf
  | .inf, .num b => if b = 0 then .nan else if 0 < b then .inf else .ninf
  | .ninf, .num b => if b = 0 then .nan else if 0 < b then .ninf else .inf

/-- Per-station column values coming out of the `groupby(['sno', 'sna'])`
aggregation of `youbike_analysis_final2.py` (lines 38-50): the first
`total`, the 2-decimal-rounded means, and the sample standard deviations
(`none` models the NaN a singleton group produces). -/
structure StationInput where
  total_capacity : ℚ
  avg_rent_bikes : ℚ
  std_rent_bikes : Option ℚ
  avg_return_bikes : ℚ
  std_return_bikes : Option ℚ

/-- Derived ratio columns added by `load_and_process_data`
(lines 53-65). -/
structure StationStats where
  usage_rate : PVal
  rent_ease : PVal
  return_ease : PVal
  rent_variation_coeff : PVal
  return_variation_coeff : PVal
  stability_index : PVal
  circulation_rate : PVal
  efficiency : PVal

/-- The derived-columns computation of `load_and_process_data`, line by
line: `usage_rate = ((total_capacity - avg_rent_bikes) /
total_capacity).round(3)`, `rent_ease`, `return_ease`,
`rent_variation_coeff = (std_rent_bikes /
avg_rent_bikes).fillna(0).round(3)`, `return_variation_coeff`,
`stability_index = ((rent_variation_coeff + return_variation_coeff) /
2).round(3)`, `circulation_rate = stability_index`, `efficiency =
(usage_rate * circulation_rate).round(3)`. -/
def stationStats (s : StationInput) : StationStats :=
  let usage := round3P (ratDiv (s.total_capacity - s.avg_rent_bikes) s.total_capacity)
  let rente := round3P (ratDiv s.avg_rent_bikes s.total_capacity)
  let rete := round3P (ratDiv s.avg_return_bikes s.total_capacity)
  let rcv := round3P (fillna0 (stdDiv s.std_rent_bikes s.avg_rent_bikes))
  let retcv := round3P (fillna0 (stdDiv s.std_return_bikes s.avg_return_bikes))
  let stab := round3P (halfP (addP rcv retcv))
  let circ := stab
  let eff := round3P (mulP usage circ)
  { usage_rate := usage
    rent_ease := rente
    return_ease := rete
    rent_variation_coeff := rcv
    return_variation_coeff := retcv
    stability_index := stab
    circulation_rate := circ
    efficiency := eff }

/-- Map pipeline, `load_youbike_data` line 24:
`np.where(total > 0, available_rent_bikes / total * 100, 0)`. -/
def bike_usage_rate (total available_rent_bikes : ℚ) : ℚ :=
  if 0 < total then available_rent_bikes / total * 100 else 0

/-- Map pipeline, `load_youbike_data` line 26:
`np.where(total > 0, available_return_bikes / total * 100, 0)`. -/
def return_availability_rate (total available_return_bikes : ℚ) : ℚ :=
  if 0 < total then available_return_bikes / total * 100 else 0

/-- The half-to-even rounding of `x` stays within `1/2` of `x`. -/
theorem roundHalfEven_close (x : ℚ) : |(roundHalfEven x : ℚ) - x| ≤ 1 / 2 := by
  have hf1 : (Int.floor x : ℚ) ≤ x := Int.floor_le x
  have hf2 : x < (Int.floor x : ℚ) + 1 := Int.lt_floor_add_one x
  unfold roundHalfEven
  rw [abs_le]
  split_ifs <;> constructor <;> push_cast <;> linarith

/-- Half-to-even rounding never drops below an integer lower bound. -/
theorem le_roundHalfEven {x : ℚ} {m : ℤ} (h : (m : ℚ) ≤ x) : m ≤ roundHalfEven x := by
  have hm : m ≤ Int.floor x := Int.le_floor.mpr h
  unfold roundHalfEven
  split_ifs <;> omega

/-- Half-to-even rounding never exceeds an integer upper bound. -/
theorem roundHalfEven_le {x : ℚ} {m : ℤ} (h : x ≤ m) : roundHalfEven x ≤ m := by
  have hm : Int.floor x ≤ m := by
    calc Int.floor x ≤ Int.floor ((m : ℚ)) := Int.floor_mono h
    _ = m := Int.floor_intCast m
  have hf1 : (Int.floor x : ℚ) ≤ x := Int.floor_le x
  unfold roundHalfEven
  split_ifs with h1 h2 h3
  · exact hm
  · have : (Int.floor x : ℚ) < (m : ℚ) := by linarith
    have : Int.floor x < m := by exact_mod_cast this
    omega
  · exact hm
  · have : (Int.floor x : ℚ) < (m : ℚ) := by linarith
    have : Int.floor x < m := by exact_mod_cast this
    omega

/-- Rounding to 3 decimals moves a value by at most `1/2000`. -/
theorem round3_close (x : ℚ) : |round3 x - x| ≤ 1 / 2000 := by
  have h := roundHalfEven_close (x * 1000)
  rw [abs_le] at h ⊢
  unfold round3
  constructor <;> [linarith [h.1]; linarith [h.2]]

/-- Rounding to 3 decimals preserves nonnegativity. -/
theorem round3_nonneg {x : ℚ} (h : 0 ≤ x) : 0 ≤ round3 x := by
  have h0 : ((0 : ℤ) : ℚ) ≤ x * 1000 := by push_cast; nlinarith
  have := le_roundHalfEven h0
  unfold round3
  have : ((0 : ℤ) : ℚ) ≤ (roundHalfEven (x * 1000) : ℚ) := by exact_mod_cast this
  push_cast at this
  linarith

/-- Rounding to 3 decimals preserves the upper bound `1`. -/
theorem round3_le_one {x : ℚ} (h : x ≤ 1) : round3 x ≤ 1 := by
  have h0 : x * 1000 ≤ ((1000 : ℤ) : ℚ) := by push_cast; nlinarith
  have := roundHalfEven_le h0
  unfold round3
  have : (roundHalfEven (x * 1000) : ℚ) ≤ ((1000 : ℤ) : ℚ) := by exact_mod_cast this
  push_cast at this
  linarith

/-- C4: for a station with positive capacity and `0 ≤ avg_rent_bikes ≤
total_capacity`, the computed `usage_rate` is a finite number in
`[0, 1]`, and `rent_ease + usage_rate` equals `1` up to the 3-decimal
rounding of each term (`|rent_ease + usage_rate - 1| ≤ 1/1000`). -/
theorem usage_rate_bounds (s : StationInput) (ht : 0 < s.total_capacity)
    (ha : 0 ≤ s.avg_rent_bikes) (hat : s.avg_rent_bikes ≤ s.total_capacity) :
    ∃ u r : ℚ, (stationStats s).usage_rate = PVal.num u ∧
      (stationStats s).rent_ease = PVal.num r ∧
      0 ≤ u ∧ u ≤ 1 ∧ |r + u - 1| ≤ 1 / 1000 := by
  have htne : s.total_capacity ≠ 0 := ne_of_gt ht
  refine ⟨round3 ((s.total_capacity - s.avg_rent_bikes) / s.total_capacity),
    round3 (s.avg_rent_bikes / s.total_capacity), ?_, ?_, ?_, ?_, ?_⟩
  · simp [stationStats, ratDiv, round3P, htne]
  · simp [stationStats, ratDiv, round3P, htne]
  · exact round3_nonneg (div_nonneg (by linarith) (le_of_lt ht))
  · exact round3_le_one ((div_le_one ht).mpr (by linarith))
  · have hsum : s.avg_rent_bikes / s.total_capacity +
        (s.total_capacity - s.avg_rent_bikes) / s.total_capacity = 1 := by
      field_simp
    have h1 := round3_close ((s.total_capacity - s.avg_rent_bikes) / s.total_capacity)
    have h2 := round3_close (s.avg_rent_bikes / s.total_capacity)
    rw [abs_le] at h1 h2 ⊢
    constructor <;> [linarith [h1.1, h2.1]; linarith [h1.2, h2.2]]

/-- C4 witness: station A of the spec's example scenario (capacity 20,
avg_rent 15) satisfies the hypotheses and the property; its usage rate
is `0.25`. -/
theorem usage_rate_bounds_witness :
    (0 < (20 : ℚ) ∧ 0 ≤ (15 : ℚ) ∧ (15 : ℚ) ≤ 20) ∧
    (∃ u r : ℚ, (stationStats ⟨20, 15, some 5, 3, some 1⟩).usage_rate = PVal.num u ∧
      (stationStats ⟨20, 15, some 5, 3, some 1⟩).rent_ease = PVal.num r ∧
      0 ≤ u ∧ u ≤ 1 ∧ |r + u - 1| ≤ 1 / 1000) :=
  ⟨⟨by norm_num, by norm_num, by norm_num⟩,
    usage_rate_bounds ⟨20, 15, some 5, 3, some 1⟩ (by norm_num) (by norm_num) (by norm_num)⟩

/-- C7: `circulation_rate` is assigned `stability_index` unchanged
(line 64), and `stability_index` is the 3-decimal rounding of the mean
of the two variation coefficients (lines 62-63); the two columns are one
value for every input. -/
theorem circulation_rate_eq_stability_index (s : StationInput) :
    (stationStats s).circulation_rate = (stationStats s).stability_index ∧
    (stationStats s).stability_index =
      round3P (halfP (addP (stationStats s).rent_variation_coeff
        (stationStats s).return_variation_coeff)) :=
  ⟨rfl, rfl⟩

/-- C2: evaluation at zero-capacity stations. The analysis pipeline
(lines 53-57, unguarded pandas division) produces a signed infinity as
soon as the numerator is nonzero — the division by zero is NOT encoded
as a NaN/flag sentinel there (only the all-zero case gives NaN) — while
the map pipeline (`load_youbike_data`, lines 24-27) does guard
`total > 0` and produces the sentinel `0`. -/
theorem zero_capacity_eval :
    (stationStats ⟨0, 2, some 1, 2, some 1⟩).rent_ease = PVal.inf ∧
    (stationStats ⟨0, 2, some 1, 2, some 1⟩).usage_rate = PVal.ninf ∧
    (stationStats ⟨0, 2, some 1, 2, some 1⟩).return_ease = PVal.inf ∧
    (stationStats ⟨0, 0, some 0, 0, some 0⟩).usage_rate = PVal.nan ∧
    bike_usage_rate 0 2 = 0 ∧
    return_availability_rate 0 2 = 0 := by
  refine ⟨?_, ?_, ?_, ?_, ?_, ?_⟩ <;>
    norm_num [stationStats, ratDiv, round3P, bike_usage_rate, return_availability_rate]

/-- C5: evaluation of the variation-coefficient columns (lines 58-61).
`fillna(0)` replaces only NaN, so `std_rent = 0` and the NaN std of a
singleton group both give `rent_variation_coeff = 0`, but a station
whose rounded `avg_rent_bikes` is exactly `0` while `std_rent_bikes` is
positive (e.g. 999 observations of 0 and one of 1: mean rounds to 0.00,
std rounds to 0.03) gets `+inf`, not `0`; symmetrically for
`return_variation_coeff`. -/
theorem variation_coeff_eval :
    (stationStats ⟨10, 0, some (3 / 100), 1, some 0⟩).rent_variation_coeff = PVal.inf ∧
    (stationStats ⟨10, 0, some 0, 1, some 0⟩).rent_variation_coeff = PVal.num 0 ∧
    (stationStats ⟨10, 5, some 0, 1, some 0⟩).rent_variation_coeff = PVal.num 0 ∧
    (stationStats ⟨10, 5, none, 1, some 0⟩).rent_variation_coeff = PVal.num 0 ∧
    (stationStats ⟨10, 1, some 0, 0, some (3 / 100)⟩).return_variation_coeff = PVal.inf := by
  refine ⟨?_, ?_, ?_, ?_, ?_⟩ <;>
    norm_num [stationStats, stdDiv, ratDiv, fillna0, round3P, round3, roundHalfEven]

/-- Ascending sort of a metric column (the order pandas quantile works
on). -/
def sortQ (xs : List ℚ) : List ℚ := List.insertionSort (· ≤ ·) xs

/-- Linear interpolation at fractional rank `h` over an ascending list,
exactly as numpy's default quantile interpolation does:
`a[floor h] + (h - floor h) * (a[ceil h] - a[floor h])`. -/
def interpQ (s : List ℚ) (h : ℚ) : ℚ :=
  s.getD (Int.floor h).toNat 0 +
    (h - Int.floor h) * (s.getD (Int.ceil h).toNat 0 - s.getD (Int.floor h).toNat 0)

/-- The pandas `Series.quantile(p)` of a column (default linear
interpolation): interpolate at rank `p * (n - 1)` in the sorted
values. -/
def quantileQ (xs : List ℚ) (p : ℚ) : ℚ :=
  interpQ (sortQ xs) (p * (((sortQ xs).length : ℚ) - 1))

/-- The column minimum `data[metric].min()`: head of the ascending
sort. -/
def minQ (xs : List ℚ) : ℚ := (sortQ xs).headD 0

/-- The column maximum `data[metric].max()`: last of the ascending
sort. -/
def maxQ (xs : List ℚ) : ℚ := (sortQ xs).getLastD 0

/-- The 25th percentile `q1` of `create_group_selector` (line 104). -/
def q1 (xs : List ℚ) : ℚ := quantileQ xs (1 / 4)

/-- The median `q2` of `create_group_selector` (line 105). -/
def q2 (xs : List ℚ) : ℚ := quantileQ xs (1 / 2)

/-- The 75th percentile `q3` of `create_group_selector` (line 106). -/
def q3 (xs : List ℚ) : ℚ := quantileQ xs (3 / 4)

/-- Membership in the low group: bounds `(min_val, q1)` with the
`'inclusive'` rule, i.e. the filter `metric >= min_val and metric <=
q1` of `plot_usage_rate` (lines 158-162). -/
def inLowGroup (xs : List ℚ) (x : ℚ) : Prop := minQ xs ≤ x ∧ x ≤ q1 xs

/-- Membership in the mid-low group: bounds `(q1, q2)` with the
`'exclusive_left'` rule, i.e. the filter `metric > q1 and metric <= q2`
(lines 163-167). -/
def inMidLowGroup (xs : List ℚ) (x : ℚ) : Prop := q1 xs < x ∧ x ≤ q2 xs

/-- Membership in the mid-high group: bounds `(q2, q3)`,
`'exclusive_left'`. -/
def inMidHighGroup (xs : List ℚ) (x : ℚ) : Prop := q2 xs < x ∧ x ≤ q3 xs

/-- Membership in the high group: bounds `(q3, max_val)`,
`'exclusive_left'`. -/
def inHighGroup (xs : List ℚ) (x : ℚ) : Prop := q3 xs < x ∧ x ≤ maxQ xs

instance (xs : List ℚ) (x : ℚ) : Decidable (inLowGroup xs x) :=
  inferInstanceAs (Decidable (minQ xs ≤ x ∧ x ≤ q1 xs))

instance (xs : List ℚ) (x : ℚ) : Decidable (inMidLowGroup xs x) :=
  inferInstanceAs (Decidable (q1 xs < x ∧ x ≤ q2 xs))

instance (xs : List ℚ) (x : ℚ) : Decidable (inMidHighGroup xs x) :=
  inferInstanceAs (Decidable (q2 xs < x ∧ x ≤ q3 xs))

instance (xs : List ℚ) (x : ℚ) : Decidable (inHighGroup xs x) :=
  inferInstanceAs (Decidable (q3 xs < x ∧ x ≤ maxQ xs))

/-- The ascending sort is sorted. -/
theorem sortQ_sorted (xs : List ℚ) : List.Sorted (· ≤ ·) (sortQ xs) :=
  List.sorted_insertionSort _ xs

/-- The ascending sort is a permutation of the input. -/
theorem sortQ_perm (xs : List ℚ) : List.Perm (sortQ xs) xs :=
  List.perm_insertionSort _ xs

/-- Membership is preserved by sorting. -/
theorem mem_sortQ {xs : List ℚ} {x : ℚ} : x ∈ sortQ xs ↔ x ∈ xs :=
  (sortQ_perm xs).mem_iff

/-- Sorting preserves length. -/
theorem sortQ_length (xs : List ℚ) : (sortQ xs).length = xs.length :=
  (sortQ_perm xs).length_eq

/-- Sorting a nonempty column gives a nonempty list. -/
theorem sortQ_ne_nil {xs : List ℚ} (h : xs ≠ []) : sortQ xs ≠ [] := by
  intro hc
  apply h
  have := sortQ_length xs
  rw [hc] at this
  exact List.length_eq_zero.mp this.symm

/-- In a sorted list, entries are monotone in the index. -/
theorem sorted_getD_le {s : List ℚ} (hs : List.Sorted (· ≤ ·) s) {i j : ℕ}
    (hij : i ≤ j) (hj : j < s.length) : s.getD i 0 ≤ s.getD j 0 := by
  have hi : i < s.length := lt_of_le_of_lt hij hj
  rw [List.getD_eq_getElem s 0 hi, List.getD_eq_getElem s 0 hj]
  rw [← List.get_eq_getElem s ⟨i, hi⟩, ← List.get_eq_getElem s ⟨j, hj⟩]
  exact hs.rel_get_of_le (by exact hij)

/-- The default head of a list is its entry at index `0`. -/
theorem headD_eq_getD (s : List ℚ) : s.headD 0 = s.getD 0 0 := by
  cases s <;> rfl

/-- The default last entry of a nonempty list is its entry at index
`length - 1`. -/
theorem getLastD_eq_getD (s : List ℚ) (h : s ≠ []) :
    s.getLastD 0 = s.getD (s.length - 1) 0 := by
  have hlt : s.length - 1 < s.length := Nat.sub_lt (List.length_pos.mpr h) one_pos
  rw [List.getLastD_eq_getLast? 0 s, List.getLast?_eq_getLast s h,
    List.getLast_eq_getElem s h, Option.getD_some, List.getD_eq_getElem s 0 hlt]

/-- A sorted list's head bounds every member from below. -/
theorem headD_le_of_mem {s : List ℚ} (hs : List.Sorted (· ≤ ·) s) {x : ℚ}
    (hx : x ∈ s) : s.headD 0 ≤ x := by
  cases s with
  | nil => cases hx
  | cons a t =>
    rcases List.mem_cons.mp hx with rfl | hxt
    · exact le_refl x
    · exact List.rel_of_sorted_cons hs x hxt

/-- A sorted list's last entry bounds every member from above. -/
theorem le_getLastD_of_mem {s : List ℚ} (hs : List.Sorted (· ≤ ·) s) {x : ℚ}
    (hx : x ∈ s) : x ≤ s.getLastD 0 := by
  have hne : s ≠ [] := List.ne_nil_of_mem hx
  obtain ⟨⟨k, hk⟩, rfl⟩ := List.mem_iff_get.mp hx
  rw [getLastD_eq_getD s hne, List.get_eq_getElem, ← List.getD_eq_getElem s 0 hk]
  exact sorted_getD_le hs (Nat.le_sub_one_of_lt hk) (Nat.sub_lt (List.length_pos.mpr hne) one_pos)

/-- The floor rank stays below the length of the column. -/
theorem floor_toNat_lt {h : ℚ} {n : ℕ} (h1 : h ≤ (n : ℚ) - 1) (hn : 1 ≤ n) :
    (Int.floor h).toNat < n := by
  have hf : Int.floor h ≤ (n : ℤ) - 1 := by
    have hx : h ≤ (((n : ℤ) - 1 : ℤ) : ℚ) := by push_cast; linarith
    calc Int.floor h ≤ Int.floor (((n : ℤ) - 1 : ℤ) : ℚ) := Int.floor_mono hx
    _ = (n : ℤ) - 1 := Int.floor_intCast _
  omega

/-- The ceiling rank stays below the length of the column. -/
theorem ceil_toNat_lt {h : ℚ} {n : ℕ} (h1 : h ≤ (n : ℚ) - 1) (hn : 1 ≤ n) :
    (Int.ceil h).toNat < n := by
  have hc : Int.ceil h ≤ (n : ℤ) - 1 := by
    apply Int.ceil_le.mpr
    push_cast
    linarith
  omega

/-- The floor rank never exceeds the ceiling rank. -/
theorem floor_toNat_le_ceil_toNat {h : ℚ} : (Int.floor h).toNat ≤ (Int.ceil h).toNat := by
  have := Int.floor_le_ceil h
  omega

/-- Interpolation at rank `h` is at least the sorted entry at
`floor h`. -/
theorem getD_floor_le_interpQ {s : List ℚ} (hs : List.Sorted (· ≤ ·) s) {h : ℚ}
    (h1 : h ≤ (s.length : ℚ) - 1) (hn : 1 ≤ s.length) :
    s.getD (Int.floor h).toNat 0 ≤ interpQ s h := by
  have hmono := sorted_getD_le hs (floor_toNat_le_ceil_toNat (h := h)) (ceil_toNat_lt h1 hn)
  have ht : 0 ≤ h - Int.floor h := by linarith [Int.floor_le h]
  unfold interpQ
  nlinarith [mul_nonneg ht (sub_nonneg.mpr hmono)]

/-- Interpolation at rank `h` is at most the sorted entry at `ceil h`. -/
theorem interpQ_le_getD_ceil {s : List ℚ} (hs : List.Sorted (· ≤ ·) s) {h : ℚ}
    (h1 : h ≤ (s.length : ℚ) - 1) (hn : 1 ≤ s.length) :
    interpQ s h ≤ s.getD (Int.ceil h).toNat 0 := by
  have hmono := sorted_getD_le hs (floor_toNat_le_ceil_toNat (h := h)) (ceil_toNat_lt h1 hn)
  have ht : h - Int.floor h < 1 := by linarith [Int.lt_floor_add_one h]
  unfold interpQ
  nlinarith [mul_nonneg (by linarith : (0 : ℚ) ≤ 1 - (h - Int.floor h)) (sub_nonneg.mpr hmono)]

/-- Linear interpolation over a sorted list is monotone in the rank. -/
theorem interpQ_mono {s : List ℚ} (hs : List.Sorted (· ≤ ·) s) {h h' : ℚ}
    (hhh : h ≤ h') (h1 : h' ≤ (s.length : ℚ) - 1) (hn : 1 ≤ s.length) :
    interpQ s h ≤ interpQ s h' := by
  have h1h : h ≤ (s.length : ℚ) - 1 := le_trans hhh h1
  rcases eq_or_lt_of_le (Int.floor_mono hhh) with hfe | hfl
  · by_cases hc' : Int.ceil h' = Int.floor h'
    · have hh'int : h' = (Int.floor h' : ℚ) := by
        have hcl : h' ≤ (Int.floor h' : ℚ) := by
          calc h' ≤ (Int.ceil h' : ℚ) := Int.le_ceil h'
          _ = (Int.floor h' : ℚ) := by rw [hc']
        linarith [Int.floor_le h']
      have heq : h = h' := by
        have : h' ≤ h := by
          rw [hh'int, ← hfe]
          exact Int.floor_le h
        linarith
      rw [heq]
    · by_cases hc : Int.ceil h = Int.floor h
      · have hhint : h = (Int.floor h : ℚ) := by
          have hcl : h ≤ (Int.floor h : ℚ) := by
            calc h ≤ (Int.ceil h : ℚ) := Int.le_ceil h
            _ = (Int.floor h : ℚ) := by rw [hc]
          linarith [Int.floor_le h]
        have hint : interpQ s h = s.getD (Int.floor h).toNat 0 := by
          unfold interpQ
          rw [show h - (Int.floor h : ℚ) = 0 by linarith]
          ring
        rw [hint, hfe]
        exact getD_floor_le_interpQ hs h1 hn
      · have hc1 : Int.ceil h = Int.floor h + 1 := by
          have := Int.ceil_le_floor_add_one h
          have := Int.floor_le_ceil h
          omega
        have hc'1 : Int.ceil h' = Int.floor h' + 1 := by
          have := Int.ceil_le_floor_add_one h'
          have := Int.floor_le_ceil h'
          omega
        have hcc : Int.ceil h = Int.ceil h' := by omega
        have hmono := sorted_getD_le hs (floor_toNat_le_ceil_toNat (h := h'))
          (ceil_toNat_lt h1 hn)
        unfold interpQ
        rw [hfe, hcc]
        nlinarith [mul_nonneg (sub_nonneg.mpr hhh) (sub_nonneg.mpr hmono)]
  · calc interpQ s h ≤ s.getD (Int.ceil h).toNat 0 := interpQ_le_getD_ceil hs h1h hn
    _ ≤ s.getD (Int.floor h').toNat 0 := by
        apply sorted_getD_le hs ?_ (floor_toNat_lt h1 hn)
        have := Int.ceil_le_floor_add_one h
        omega
    _ ≤ interpQ s h' := getD_floor_le_interpQ hs h1 hn

/-- A nonempty column sorts to a list of positive length. -/
theorem one_le_sortQ_length {xs : List ℚ} (h : xs ≠ []) : 1 ≤ (sortQ xs).length := by
  rw [sortQ_length]
  exact List.length_pos.mpr h

/-- The pandas quantile is monotone in the probability. -/
theorem quantileQ_mono (xs : List ℚ) (hxs : xs ≠ []) {p p' : ℚ}
    (hpp : p ≤ p') (hp1 : p' ≤ 1) : quantileQ xs p ≤ quantileQ xs p' := by
  have hn := one_le_sortQ_length hxs
  have hn1 : (0 : ℚ) ≤ ((sortQ xs).length : ℚ) - 1 := by
    have : (1 : ℚ) ≤ ((sortQ xs).length : ℚ) := by exact_mod_cast hn
    linarith
  apply interpQ_mono (sortQ_sorted xs) (mul_le_mul_of_nonneg_right hpp hn1) ?_ hn
  calc p' * (((sortQ xs).length : ℚ) - 1)
      ≤ 1 * (((sortQ xs).length : ℚ) - 1) := mul_le_mul_of_nonneg_right hp1 hn1
  _ = ((sortQ xs).length : ℚ) - 1 := one_mul _

/-- Every quantile of a nonempty column is at least the column
minimum. -/
theorem minQ_le_quantileQ (xs : List ℚ) (hxs : xs ≠ []) {p : ℚ}
    (hp1 : p ≤ 1) : minQ xs ≤ quantileQ xs p := by
  have hn := one_le_sortQ_length hxs
  have hn1 : (0 : ℚ) ≤ ((sortQ xs).length : ℚ) - 1 := by
    have : (1 : ℚ) ≤ ((sortQ xs).length : ℚ) := by exact_mod_cast hn
    linarith
  have hh1 : p * (((sortQ xs).length : ℚ) - 1) ≤ ((sortQ xs).length : ℚ) - 1 := by
    nlinarith
  unfold minQ quantileQ
  rw [headD_eq_getD]
  calc (sortQ xs).getD 0 0
      ≤ (sortQ xs).getD (Int.floor (p * (((sortQ xs).length : ℚ) - 1))).toNat 0 :=
        sorted_getD_le (sortQ_sorted xs) (Nat.zero_le _) (floor_toNat_lt hh1 hn)
  _ ≤ interpQ (sortQ xs) (p * (((sortQ xs).length : ℚ) - 1)) :=
        getD_floor_le_interpQ (sortQ_sorted xs) hh1 hn

/-- Every quantile of a nonempty column is at most the column
maximum. -/
theorem quantileQ_le_maxQ (xs : List ℚ) (hxs : xs ≠ []) {p : ℚ}
    (hp1 : p ≤ 1) : quantileQ xs p ≤ maxQ xs := by
  have hn := one_le_sortQ_length hxs
  have hn1 : (0 : ℚ) ≤ ((sortQ xs).length : ℚ) - 1 := by
    have : (1 : ℚ) ≤ ((sortQ xs).length : ℚ) := by exact_mod_cast hn
    linarith
  have hh1 : p * (((sortQ xs).length : ℚ) - 1) ≤ ((sortQ xs).length : ℚ) - 1 := by
    nlinarith
  unfold maxQ quantileQ
  rw [getLastD_eq_getD _ (sortQ_ne_nil hxs)]
  calc interpQ (sortQ xs) (p * (((sortQ xs).length : ℚ) - 1))
      ≤ (sortQ xs).getD (Int.ceil (p * (((sortQ xs).length : ℚ) - 1))).toNat 0 :=
        interpQ_le_getD_ceil (sortQ_sorted xs) hh1 hn
  _ ≤ (sortQ xs).getD ((sortQ xs).length - 1) 0 := by
        apply sorted_getD_le (sortQ_sorted xs) ?_ (Nat.sub_lt (by omega) one_pos)
        have := ceil_toNat_lt hh1 hn
        omega

/-- The column minimum bounds every column value from below. -/
theorem minQ_le_of_mem {xs : List ℚ} {x : ℚ} (hx : x ∈ xs) : minQ xs ≤ x :=
  headD_le_of_mem (sortQ_sorted xs) (mem_sortQ.mpr hx)

/-- The column maximum bounds every column value from above. -/
theorem le_maxQ_of_mem {xs : List ℚ} {x : ℚ} (hx : x ∈ xs) : x ≤ maxQ xs :=
  le_getLastD_of_mem (sortQ_sorted xs) (mem_sortQ.mpr hx)

/-- C1: for every nonempty metric column, the four quartile groups of
`create_group_selector` with the boundary rules of the plot filters
(low inclusive on both ends, the other three exclusive on the left)
partition the stations: every metric value present in the column lies
in at least one group, and in no two groups at once. -/
theorem bucketizer_partition (xs : List ℚ) (hxs : xs ≠ []) (x : ℚ) (hx : x ∈ xs) :
    (inLowGroup xs x ∨ inMidLowGroup xs x ∨ inMidHighGroup xs x ∨ inHighGroup xs x) ∧
    ¬(inLowGroup xs x ∧ inMidLowGroup xs x) ∧
    ¬(inLowGroup xs x ∧ inMidHighGroup xs x) ∧
    ¬(inLowGroup xs x ∧ inHighGroup xs x) ∧
    ¬(inMidLowGroup xs x ∧ inMidHighGroup xs x) ∧
    ¬(inMidLowGroup xs x ∧ inHighGroup xs x) ∧
    ¬(inMidHighGroup xs x ∧ inHighGroup xs x) := by
  have h12 : q1 xs ≤ q2 xs := quantileQ_mono xs hxs (by norm_num) (by norm_num)
  have h23 : q2 xs ≤ q3 xs := quantileQ_mono xs hxs (by norm_num) (by norm_num)
  have hminx := minQ_le_of_mem hx
  have hxmax := le_maxQ_of_mem hx
  unfold inLowGroup inMidLowGroup inMidHighGroup inHighGroup
  constructor
  · rcases le_or_lt x (q1 xs) with hle | hgt
    · exact Or.inl ⟨hminx, hle⟩
    · rcases le_or_lt x (q2 xs) with hle2 | hgt2
      · exact Or.inr (Or.inl ⟨hgt, hle2⟩)
      · rcases le_or_lt x (q3 xs) with hle3 | hgt3
        · exact Or.inr (Or.inr (Or.inl ⟨hgt2, hle3⟩))
        · exact Or.inr (Or.inr (Or.inr ⟨hgt3, hxmax⟩))
  · refine ⟨?_, ?_, ?_, ?_, ?_, ?_⟩ <;> rintro ⟨⟨a1, a2⟩, b1, b2⟩ <;> linarith

/-- C1 witness: on the column `[1, 2, 3, 4]` the value `2` is assigned
to exactly one group. -/
theorem bucketizer_partition_witness :
    (([1, 2, 3, 4] : List ℚ) ≠ [] ∧ (2 : ℚ) ∈ ([1, 2, 3, 4] : List ℚ)) ∧
    ((inLowGroup [1, 2, 3, 4] 2 ∨ inMidLowGroup [1, 2, 3, 4] 2 ∨
        inMidHighGroup [1, 2, 3, 4] 2 ∨ inHighGroup [1, 2, 3, 4] 2) ∧
      ¬(inLowGroup [1, 2, 3, 4] 2 ∧ inMidLowGroup [1, 2, 3, 4] 2) ∧
      ¬(inLowGroup [1, 2, 3, 4] 2 ∧ inMidHighGroup [1, 2, 3, 4] 2) ∧
      ¬(inLowGroup [1, 2, 3, 4] 2 ∧ inHighGroup [1, 2, 3, 4] 2) ∧
      ¬(inMidLowGroup [1, 2, 3, 4] 2 ∧ inMidHighGroup [1, 2, 3, 4] 2) ∧
      ¬(inMidLowGroup [1, 2, 3, 4] 2 ∧ inHighGroup [1, 2, 3, 4] 2) ∧
      ¬(inMidHighGroup [1, 2, 3, 4] 2 ∧ inHighGroup [1, 2, 3, 4] 2)) :=
  ⟨⟨by simp, by simp⟩, bucketizer_partition [1, 2, 3, 4] (by simp) 2 (by simp)⟩

/-- C3 counterexample: on the column `[0, 0, 1]` the quartiles collapse
(`q1 = q2 = 0`), and the station whose metric value `0` equals `q2` is
NOT assigned to group 2 (mid-low) as the claim states: it falls into
group 1 (low), because group 2 requires `metric > q1 = q2`. -/
theorem boundary_q2_counterexample :
    q2 [(0 : ℚ), 0, 1] = 0 ∧ q1 [(0 : ℚ), 0, 1] = 0 ∧
    ¬inMidLowGroup [(0 : ℚ), 0, 1] 0 ∧ inLowGroup [(0 : ℚ), 0, 1] 0 := by
  have hsort : sortQ [(0 : ℚ), 0, 1] = [0, 0, 1] := by
    simp [sortQ, List.insertionSort, List.orderedInsert]
  have hq2 : q2 [(0 : ℚ), 0, 1] = 0 := by
    unfold q2 quantileQ
    rw [hsort]
    norm_num [interpQ]
  have hq1 : q1 [(0 : ℚ), 0, 1] = 0 := by
    unfold q1 quantileQ
    rw [hsort]
    norm_num [interpQ]
    rw [show Int.ceil ((1 : ℚ) / 2) = 1 by rw [Int.ceil_eq_iff]; norm_num]
    norm_num
  have hmin : minQ [(0 : ℚ), 0, 1] = 0 := by
    unfold minQ
    rw [hsort]
    rfl
  refine ⟨hq2, hq1, ?_, ?_⟩
  · unfold inMidLowGroup
    rw [hq1, hq2]
    rintro ⟨hlt, _⟩
    exact lt_irrefl 0 hlt
  · unfold inLowGroup
    rw [hq1, hmin]
    exact ⟨le_refl 0, le_refl 0⟩

/-- C3 (amended): a metric value exactly equal to `q1` lands in group 1
and never in group 2; a value exactly equal to `q2` never lands in
group 3, and lands in group 2 exactly when `q1 < q2` (when the
quartiles collapse it falls through to a lower group); symmetrically a
value equal to `q3` never lands in group 4 and lands in group 3 exactly
when `q2 < q3`. -/
theorem bucketizer_boundary (xs : List ℚ) (hxs : xs ≠ []) :
    (inLowGroup xs (q1 xs) ∧ ¬inMidLowGroup xs (q1 xs)) ∧
    (¬inMidHighGroup xs (q2 xs) ∧ (q1 xs < q2 xs → inMidLowGroup xs (q2 xs))) ∧
    (¬inHighGroup xs (q3 xs) ∧ (q2 xs < q3 xs → inMidHighGroup xs (q3 xs))) := by
  have hmin1 : minQ xs ≤ q1 xs := minQ_le_quantileQ xs hxs (by norm_num)
  unfold inLowGroup inMidLowGroup inMidHighGroup inHighGroup
  refine ⟨⟨⟨hmin1, le_refl _⟩, ?_⟩, ⟨?_, ?_⟩, ⟨?_, ?_⟩⟩
  · rintro ⟨hlt, _⟩
    exact lt_irrefl _ hlt
  · rintro ⟨hlt, _⟩
    exact lt_irrefl _ hlt
  · intro hlt
    exact ⟨hlt, le_refl _⟩
  · rintro ⟨hlt, _⟩
    exact lt_irrefl _ hlt
  · intro hlt
    exact ⟨hlt, le_refl _⟩

/-- C3 witness: the amended boundary behaviour at the concrete column
`[1, 2, 3, 4]`. -/
theorem bucketizer_boundary_witness :
    (([1, 2, 3, 4] : List ℚ) ≠ []) ∧
    ((inLowGroup [1, 2, 3, 4] (q1 [1, 2, 3, 4]) ∧
        ¬inMidLowGroup [1, 2, 3, 4] (q1 [1, 2, 3, 4])) ∧
      (¬inMidHighGroup [1, 2, 3, 4] (q2 [1, 2, 3, 4]) ∧
        (q1 [1, 2, 3, 4] < q2 [1, 2, 3, 4] → inMidLowGroup [1, 2, 3, 4] (q2 [1, 2, 3, 4]))) ∧
      (¬inHighGroup [1, 2, 3, 4] (q3 [1, 2, 3, 4]) ∧
        (q2 [1, 2, 3, 4] < q3 [1, 2, 3, 4] → inMidHighGroup [1, 2, 3, 4] (q3 [1, 2, 3, 4])))) :=
  ⟨by simp, bucketizer_boundary [1, 2, 3, 4] (by simp)⟩

/-- In a list whose members are all `c`, every in-range entry is `c`. -/
theorem getD_const {s : List ℚ} {c : ℚ} (hc : ∀ y ∈ s, y = c) {i : ℕ}
    (hi : i < s.length) : s.getD i 0 = c := by
  rw [List.getD_eq_getElem s 0 hi]
  exact hc _ (List.getElem_mem hi)

/-- Interpolation over a constant list returns the constant. -/
theorem interpQ_const {s : List ℚ} {c : ℚ} (hc : ∀ y ∈ s, y = c) {h : ℚ}
    (h1 : h ≤ (s.length : ℚ) - 1) (hn : 1 ≤ s.length) : interpQ s h = c := by
  unfold interpQ
  rw [getD_const hc (floor_toNat_lt h1 hn), getD_const hc (ceil_toNat_lt h1 hn)]
  ring

/-- Every quantile of a constant column is the constant. -/
theorem quantileQ_const {xs : List ℚ} {c : ℚ} (hxs : xs ≠ [])
    (hc : ∀ y ∈ xs, y = c) {p : ℚ} (hp1 : p ≤ 1) : quantileQ xs p = c := by
  have hn := one_le_sortQ_length hxs
  have hcs : ∀ y ∈ sortQ xs, y = c := fun y hy => hc y (mem_sortQ.mp hy)
  have hn1 : (0 : ℚ) ≤ ((sortQ xs).length : ℚ) - 1 := by
    have : (1 : ℚ) ≤ ((sortQ xs).length : ℚ) := by exact_mod_cast hn
    linarith
  exact interpQ_const hcs (by nlinarith) hn

/-- The minimum of a constant column is the constant. -/
theorem minQ_const {xs : List ℚ} {c : ℚ} (hxs : xs ≠ [])
    (hc : ∀ y ∈ xs, y = c) : minQ xs = c := by
  have hn := one_le_sortQ_length hxs
  have hcs : ∀ y ∈ sortQ xs, y = c := fun y hy => hc y (mem_sortQ.mp hy)
  unfold minQ
  rw [headD_eq_getD]
  exact getD_const hcs (by omega)

/-- The maximum of a constant column is the constant. -/
theorem maxQ_const {xs : List ℚ} {c : ℚ} (hxs : xs ≠ [])
    (hc : ∀ y ∈ xs, y = c) : maxQ xs = c := by
  have hn := one_le_sortQ_length hxs
  have hcs : ∀ y ∈ sortQ xs, y = c := fun y hy => hc y (mem_sortQ.mp hy)
  unfold maxQ
  rw [getLastD_eq_getD _ (sortQ_ne_nil hxs)]
  exact getD_const hcs (by omega)

/-- C6: on a constant metric column (so `min = q1 = q2 = q3 = max`) the
bucketizer still returns a total result: group 1 holds every station
and groups 2-4 are empty, with no failure. -/
theorem bucketizer_constant_column (xs : List ℚ) (c : ℚ) (hxs : xs ≠ [])
    (hc : ∀ y ∈ xs, y = c) (x : ℚ) (hx : x ∈ xs) :
    inLowGroup xs x ∧ ¬inMidLowGroup xs x ∧ ¬inMidHighGroup xs x ∧ ¬inHighGroup xs x := by
  have hq1 : q1 xs = c := quantileQ_const hxs hc (by norm_num)
  have hq2 : q2 xs = c := quantileQ_const hxs hc (by norm_num)
  have hq3 : q3 xs = c := quantileQ_const hxs hc (by norm_num)
  have hmin : minQ xs = c := minQ_const hxs hc
  have hmax : maxQ xs = c := maxQ_const hxs hc
  have hxc : x = c := hc x hx
  unfold inLowGroup inMidLowGroup inMidHighGroup inHighGroup
  rw [hq1, hq2, hq3, hmin, hmax, hxc]
  exact ⟨⟨le_refl c, le_refl c⟩, fun h => lt_irrefl c h.1, fun h => lt_irrefl c h.1,
    fun h => lt_irrefl c h.1⟩

/-- C6 witness: the constant column `[5, 5]` puts the value `5` in
group 1 only. -/
theorem bucketizer_constant_column_witness :
    (([5, 5] : List ℚ) ≠ [] ∧ (∀ y ∈ ([5, 5] : List ℚ), y = 5) ∧ (5 : ℚ) ∈ ([5, 5] : List ℚ)) ∧
    (inLowGroup [5, 5] 5 ∧ ¬inMidLowGroup [5, 5] 5 ∧ ¬inMidHighGroup [5, 5] 5 ∧
      ¬inHighGroup [5, 5] 5) :=
  ⟨⟨by simp, by simp, by simp⟩,
    bucketizer_constant_column [5, 5] 5 (by simp) (by simp) 5 (by simp)⟩

/-- One raw snapshot row of the analysis dataframe as the hourly
aggregation sees it: the hour-of-day derived from the timestamp
(line 35) and the two availability columns. -/
structure SnapRow where
  hour : ℕ
  available_rent_bikes : ℚ
  available_return_bikes : ℚ

/-- Arithmetic mean of a column, as pandas `mean` computes it on a
(nonempty) group. -/
def meanQ (xs : List ℚ) : ℚ := xs.sum / xs.length

/-- The group keys of `df.groupby('hour')`: the distinct hours present
in the data, in ascending order (pandas sorts group keys). -/
def hourKeys (df : List SnapRow) : List ℕ :=
  List.insertionSort (· ≤ ·) (df.map SnapRow.hour).dedup

/-- All raw rows of one hour group, across every station. -/
def rowsAtHour (df : List SnapRow) (h : ℕ) : List SnapRow :=
  df.filter (fun r => r.hour = h)

/-- The hourly aggregate of `load_and_process_data` (lines 79-82):
`df.groupby('hour').agg({'available_rent_bikes': 'mean',
'available_return_bikes': 'mean'}).round(2)`. -/
def hourly_usage (df : List SnapRow) : List (ℕ × ℚ × ℚ) :=
  (hourKeys df).map (fun h =>
    (h, round2 (meanQ ((rowsAtHour df h).map SnapRow.available_rent_bikes)),
      round2 (meanQ ((rowsAtHour df h).map SnapRow.available_return_bikes))))

/-- A `≤`-sorted list without duplicates is `<`-sorted. -/
theorem sorted_lt_of_le_nodup {l : List ℕ} (hs : List.Sorted (· ≤ ·) l)
    (hn : l.Nodup) : List.Sorted (· < ·) l :=
  (hs.and hn).imp (fun h => lt_of_le_of_ne h.1 h.2)

/-- The hour column of the hourly aggregate is exactly the sorted
distinct-hour list. -/
theorem hourly_usage_keys (df : List SnapRow) :
    (hourly_usage df).map Prod.fst = hourKeys df := by
  simp [hourly_usage, List.map_map, Function.comp_def]

/-- C8: the hourly aggregate has its rows in strictly ascending hour
order (so exactly one row per hour), an hour appears among its rows
exactly when some raw row has that hour (absent hours are absent, not
zero-filled), and each row carries the 2-decimal-rounded means of
`available_rent_bikes` and `available_return_bikes` over all raw rows
of that hour pooled across stations. -/
theorem hourly_usage_spec (df : List SnapRow) :
    List.Sorted (· < ·) ((hourly_usage df).map Prod.fst) ∧
    (∀ h : ℕ, h ∈ (hourly_usage df).map Prod.fst ↔ ∃ r ∈ df, r.hour = h) ∧
    (∀ e ∈ hourly_usage df,
      e.2.1 = round2 (meanQ ((rowsAtHour df e.1).map SnapRow.available_rent_bikes)) ∧
      e.2.2 = round2 (meanQ ((rowsAtHour df e.1).map SnapRow.available_return_bikes))) := by
  refine ⟨?_, ?_, ?_⟩
  · rw [hourly_usage_keys]
    exact sorted_lt_of_le_nodup (List.sorted_insertionSort _ _)
      ((List.perm_insertionSort _ _).nodup_iff.mpr (List.nodup_dedup _))
  · intro h
    rw [hourly_usage_keys]
    simp [hourKeys, (List.perm_insertionSort (· ≤ ·) _).mem_iff, List.mem_dedup]
  · intro e he
    obtain ⟨h, _, rfl⟩ := List.mem_map.mp he
    exact ⟨rfl, rfl⟩

/-- C8 witness: on a concrete two-row dataset the hour `8` is a key of
the hourly aggregate exactly because a row with hour `8` exists. -/
theorem hourly_usage_spec_witness :
    8 ∈ (hourly_usage [(⟨8, 3, 5⟩ : SnapRow), ⟨7, 1, 2⟩]).map Prod.fst ↔
      ∃ r ∈ [(⟨8, 3, 5⟩ : SnapRow), ⟨7, 1, 2⟩], r.hour = 8 :=
  (hourly_usage_spec [⟨8, 3, 5⟩, ⟨7, 1, 2⟩]).2.1 8

/-- Python `str.split('_')`: cut a character list at every underscore,
keeping empty segments, as `sna.split('_')` does (line 72). -/
def splitUnd : List Char → List (List Char)
  | [] => [[]]
  | c :: rest =>
    match splitUnd rest with
    | [] => [[]]
    | s :: ss => if c = '_' then [] :: s :: ss else (c :: s) :: ss

/-- The `short_name` lambda of `load_and_process_data` (lines 71-76):
`x.split('_')[1][:15] + '..' if '_' in x and len(x.split('_')[1]) > 15
else (x.split('_')[1] if '_' in x else x[:15] + '..' if len(x) > 15
else x)`. -/
def short_name (x : List Char) : List Char :=
  if '_' ∈ x ∧ 15 < ((splitUnd x).getD 1 []).length then
    ((splitUnd x).getD 1 []).take 15 ++ ['.', '.']
  else if '_' ∈ x then (splitUnd x).getD 1 []
  else if 15 < x.length then x.take 15 ++ ['.', '.']
  else x

/-- C9: `short_name` is a function of the station name alone, its
result never exceeds 17 characters, and it behaves as described: with
an underscore present it is the second underscore-separated segment,
truncated to 15 characters plus `'..'` when that segment is longer than
15; otherwise it is the name itself, truncated the same way when longer
than 15. -/
theorem short_name_spec (x : List Char) :
    (short_name x).length ≤ 17 ∧
    ('_' ∈ x → short_name x =
      (if 15 < ((splitUnd x).getD 1 []).length then
        ((splitUnd x).getD 1 []).take 15 ++ ['.', '.']
      else (splitUnd x).getD 1 [])) ∧
    ('_' ∉ x → short_name x = (if 15 < x.length then x.take 15 ++ ['.', '.'] else x)) := by
  unfold short_name
  split_ifs <;> refine ⟨?_, ?_, ?_⟩ <;> try intro hm
  all_goals first
    | rfl
    | tauto
    | (simp only [List.length_append, List.length_take, List.length_cons,
        List.length_nil]; omega)
    | omega

/-- C9 witness: on the concrete name `"a_b"` the underscore branch
applies and yields the second segment `"b"`, within the 17-character
bound. -/
theorem short_name_spec_witness :
    ('_' ∈ "a_b".toList) ∧ short_name "a_b".toList = "b".toList ∧
      (short_name "a_b".toList).length ≤ 17 :=
  ⟨by decide, by
    have h := (short_name_spec "a_b".toList).2.1 (by decide)
    rw [h]
    decide, (short_name_spec "a_b".toList).1⟩

/-- One row of the map dataframe after `load_youbike_data`: the raw
columns that `create_map_visualization` and the data table of `main`
group and filter on. -/
structure MapRow where
  sno : String
  sna : String
  latitude : ℚ
  longitude : ℚ
  total : ℚ
  available_rent_bikes : ℚ
  available_return_bikes : ℚ

/-- The four filter columns offered by the map dashboard's sidebar. -/
inductive FilterBy where
  | available_rent_bikes
  | return_availability_rate
  | bike_usage_rate
  | total
deriving DecidableEq

/-- Per-row value of a filter column; the two rate columns are the ones
derived (guarded) in `load_youbike_data`. -/
def metricVal (m : FilterBy) (r : MapRow) : ℚ :=
  match m with
  | .available_rent_bikes => r.available_rent_bikes
  | .return_availability_rate => return_availability_rate r.total r.available_return_bikes
  | .bike_usage_rate => bike_usage_rate r.total r.available_rent_bikes
  | .total => r.total

/-- The `'first'` aggregation on the `total` column. -/
def firstTotal (g : List MapRow) : ℚ :=
  match g with
  | [] => 0
  | r :: _ => r.total

/-- The aggregation both pipelines apply per group: `'total': 'first'`
and `'mean'` for every other column (`create_map_visualization`
lines 39-45 and `main` lines 323-328 use the same dict). -/
def aggVal (m : FilterBy) (g : List MapRow) : ℚ :=
  match m with
  | .total => firstTotal g
  | _ => meanQ (g.map (metricVal m))

/-- The grouping key of the map pipeline:
`groupby(['sno', 'sna', 'latitude', 'longitude'])`. -/
def mapKey (r : MapRow) : String × String × ℚ × ℚ :=
  (r.sno, r.sna, r.latitude, r.longitude)

/-- The distinct map group keys present in the dataframe. -/
def mapKeys (df : List MapRow) : List (String × String × ℚ × ℚ) :=
  (df.map mapKey).dedup

/-- The rows of one map group. -/
def rowsOfMapKey (df : List MapRow) (k : String × String × ℚ × ℚ) : List MapRow :=
  df.filter (fun r => mapKey r = k)

/-- The station names rendered as markers: the map pipeline keeps the
groups whose aggregated filter column is `>= min_value` (line 48) and
draws one marker per surviving group, labelled by its `sna`. -/
def mapStationNames (df : List MapRow) (m : FilterBy) (v : ℚ) : List String :=
  ((mapKeys df).filter (fun k => v ≤ aggVal m (rowsOfMapKey df k))).map (fun k => k.2.1)

/-- The distinct station names present in the dataframe — the group
keys of the table pipeline's `groupby('sna')`. -/
def tableKeys (df : List MapRow) : List String := (df.map MapRow.sna).dedup

/-- The rows of one table group. -/
def rowsOfSna (df : List MapRow) (s : String) : List MapRow :=
  df.filter (fun r => r.sna = s)

/-- The station names kept by the data table of `main` (lines 323-331,
the `filtered_stations` list): group by `sna` alone, aggregate with the
same dict, keep names whose aggregated filter column is
`>= min_value`. -/
def tableStationNames (df : List MapRow) (m : FilterBy) (v : ℚ) : List String :=
  (tableKeys df).filter (fun s => v ≤ aggVal m (rowsOfSna df s))

/-- Modelled from the claim's wording, for comparison: the stations
whose per-station MEAN of the chosen filter column is `>= min_value`
(the claim asserts this for every filter column, but the code
aggregates `total` with `'first'`, not `'mean'`). -/
def meanFilteredNames (df : List MapRow) (m : FilterBy) (v : ℚ) : List String :=
  (tableKeys df).filter (fun s => v ≤ meanQ ((rowsOfSna df s).map (metricVal m)))

/-- When every station name determines its map key, a map group is
exactly a table group. -/
theorem rowsOfMapKey_eq_rowsOfSna (df : List MapRow)
    (huniq : ∀ r ∈ df, ∀ r' ∈ df, r.sna = r'.sna → mapKey r = mapKey r')
    {r : MapRow} (hr : r ∈ df) :
    rowsOfMapKey df (mapKey r) = rowsOfSna df r.sna := by
  unfold rowsOfMapKey rowsOfSna
  apply List.filter_congr
  intro a ha
  simp only [decide_eq_decide]
  constructor
  · intro h
    exact congrArg (fun k => k.2.1) h
  · intro h
    exact huniq a ha r hr h

/-- C10 (amended): when each station name maps to a single
`(sno, latitude, longitude)` triple, the set of station names drawn as
map markers equals the set of names kept for the detail table, for
every filter column and threshold; and for the three mean-aggregated
filter columns that common set is exactly the claim's "stations whose
per-station mean is `>= min_value`" (for `total` the code filters on
the first value instead). -/
theorem map_table_consistency (df : List MapRow) (m : FilterBy) (v : ℚ)
    (huniq : ∀ r ∈ df, ∀ r' ∈ df, r.sna = r'.sna → mapKey r = mapKey r') :
    (∀ name, name ∈ mapStationNames df m v ↔ name ∈ tableStationNames df m v) ∧
    (m ≠ FilterBy.total → tableStationNames df m v = meanFilteredNames df m v) := by
  constructor
  · intro name
    constructor
    · intro hmem
      obtain ⟨k, hk, rfl⟩ := List.mem_map.mp hmem
      have hk2 := List.mem_filter.mp hk
      obtain ⟨r, hr, rfl⟩ := List.mem_map.mp (List.mem_dedup.mp hk2.1)
      have hval : v ≤ aggVal m (rowsOfMapKey df (mapKey r)) := of_decide_eq_true hk2.2
      rw [rowsOfMapKey_eq_rowsOfSna df huniq hr] at hval
      unfold tableStationNames
      apply List.mem_filter.mpr
      exact ⟨List.mem_dedup.mpr (List.mem_map.mpr ⟨r, hr, rfl⟩), decide_eq_true hval⟩
    · intro hmem
      have hm2 := List.mem_filter.mp hmem
      obtain ⟨r, hr, rfl⟩ := List.mem_map.mp (List.mem_dedup.mp hm2.1)
      have hval : v ≤ aggVal m (rowsOfSna df r.sna) := of_decide_eq_true hm2.2
      unfold mapStationNames
      apply List.mem_map.mpr
      refine ⟨mapKey r, List.mem_filter.mpr ⟨?_, ?_⟩, rfl⟩
      · exact List.mem_dedup.mpr (List.mem_map.mpr ⟨r, hr, rfl⟩)
      · rw [rowsOfMapKey_eq_rowsOfSna df huniq hr]
        exact decide_eq_true hval
  · intro hm
    cases m with
    | total => exact absurd rfl hm
    | available_rent_bikes => rfl
    | return_availability_rate => rfl
    | bike_usage_rate => rfl

/-- A two-snapshot dataset for one station whose recorded capacity
changes between snapshots (10, then 30). -/
def exMapRows : List MapRow :=
  [⟨"s1", "A", 0, 0, 10, 0, 0⟩, ⟨"s1", "A", 0, 0, 30, 0, 0⟩]

/-- C10 counterexample: with the filter column `total` and threshold
`12`, station `A` has mean total `20 >= 12`, so the claim says it is
shown — but both the map and the table aggregate `total` with
`'first'` (value `10 < 12`) and drop it, even though every name maps
to a single key triple. -/
theorem map_table_mean_counterexample :
    (∀ r ∈ exMapRows, ∀ r' ∈ exMapRows, r.sna = r'.sna → mapKey r = mapKey r') ∧
    "A" ∈ meanFilteredNames exMapRows FilterBy.total 12 ∧
    "A" ∉ mapStationNames exMapRows FilterBy.total 12 ∧
    "A" ∉ tableStationNames exMapRows FilterBy.total 12 := by
  refine ⟨by decide, ?_, by decide, by decide⟩
  have hkeys : tableKeys exMapRows = ["A"] := by rfl
  have hrows : rowsOfSna exMapRows "A" = exMapRows := by rfl
  unfold meanFilteredNames
  rw [hkeys]
  apply List.mem_filter.mpr
  refine ⟨List.mem_singleton.mpr rfl, decide_eq_true ?_⟩
  rw [hrows]
  norm_num [exMapRows, meanQ, metricVal]

/-- C10 witness: the name-uniqueness hypothesis holds on the concrete
dataset, and with the mean-aggregated filter column
`available_rent_bikes` the marker names, table names and mean-filtered
names all agree. -/
theorem map_table_consistency_witness :
    (∀ r ∈ exMapRows, ∀ r' ∈ exMapRows, r.sna = r'.sna → mapKey r = mapKey r') ∧
    ((∀ name, name ∈ mapStationNames exMapRows FilterBy.available_rent_bikes 0 ↔
        name ∈ tableStationNames exMapRows FilterBy.available_rent_bikes 0) ∧
      (FilterBy.available_rent_bikes ≠ FilterBy.total →
        tableStationNames exMapRows FilterBy.available_rent_bikes 0 =
          meanFilteredNames exMapRows FilterBy.available_rent_bikes 0)) :=
  ⟨by decide, map_table_consistency exMapRows FilterBy.available_rent_bikes 0 (by decide)⟩
